import Mathlib

/-
Verification of the copy-on-write trie and versioned store from
src/trie/src.hpp (namespace sjtu).

The C++ code stores `TrieNode` objects behind `shared_ptr`s; several
properties of the repository (reference equality of roots, structural
sharing of subtrees) are about pointer identity, so the embedding models
the pointer graph explicitly:

* a `Node` mirrors a `TrieNode` / `TrieNodeWithValue<T>` object:
  - `children` mirrors `children_` (a map from char to child pointer),
  - `flag` mirrors the public `is_value_node_` field,
  - `val` mirrors the `value_` slot of `TrieNodeWithValue<T>`:
    `none` means the object is a plain `TrieNode` (no value slot),
    `some (tag, x)` means the object is a `TrieNodeWithValue<T>` where
    the Nat `tag` stands for the C++ type `T` and `x` for the payload;
* a `Heap` is the list of all allocated nodes; an address is an index;
  allocation appends at the end; `shared_ptr<const TrieNode>` is a `Nat`
  address; the null pointer (empty trie root) is `Option Nat`'s `none`.

Operations that the C++ code performs by mutating freshly allocated
(not yet published) nodes are modelled with `setNode` on the heap at the
fresh address.  Fallible steps (dereferencing a null or dangling pointer,
`pop_back` on an empty vector) return `none`: they model C++ undefined
behaviour.
-/

set_option autoImplicit false

namespace CowTrie

/-- One `TrieNode` (or `TrieNodeWithValue`) object, as described above. -/
structure Node where
  children : List (Char × Nat)
  flag : Bool
  val : Option (Nat × Nat)
deriving DecidableEq, Repr

/-- The store of all allocated trie nodes; an address is an index into the list. -/
abbrev Heap := List Node

/-- Dereference an address: `hget h a` is the node at address `a`, `none` if dangling. -/
def hget : Heap → Nat → Option Node
  | [], _ => none
  | n :: _, 0 => some n
  | _ :: t, a + 1 => hget t a

/-- Overwrite the node stored at an address (used only on freshly allocated nodes,
mirroring the C++ code mutating nodes it just cloned and has not yet published). -/
def setNode : Heap → Nat → Node → Heap
  | [], _, _ => []
  | _ :: t, 0, m => m :: t
  | n :: t, a + 1, m => n :: setNode t a m

/-- Mirrors `children_.find(ch)` on the `std::map<char, shared_ptr<const TrieNode>>`. -/
def findChild : List (Char × Nat) → Char → Option Nat
  | [], _ => none
  | (c, a) :: rest, d => if c = d then some a else findChild rest d

/-- Mirrors `children_[ch] = p`: replace the binding for `ch`, or insert it. -/
def setChild : List (Char × Nat) → Char → Nat → List (Char × Nat)
  | [], d, b => [(d, b)]
  | (c, a) :: rest, d, b => if c = d then (d, b) :: rest else (c, a) :: setChild rest d b

/-- Mirrors `children_.erase(ch)`. -/
def eraseChild : List (Char × Nat) → Char → List (Char × Nat)
  | [], _ => []
  | (c, a) :: rest, d => if c = d then rest else (c, a) :: eraseChild rest d

/-- Mirrors the virtual `Clone()`:
`TrieNode::Clone` copies the children and produces a plain node (`flag = false`);
`TrieNodeWithValue<T>::Clone` copies children and value and its constructor sets
`is_value_node_ = true` unconditionally — even when the source object had the flag
cleared (a "dead" node left behind by `Remove`).  Hence the clone's flag is
`val.isSome`, not the source's flag. -/
def cloneNode (n : Node) : Node :=
  ⟨n.children, n.val.isSome, n.val⟩

/-- Mirrors `std::make_shared<TrieNode>(children)`. -/
def plainNode (cs : List (Char × Nat)) : Node :=
  ⟨cs, false, none⟩

/-- Follow a key character by character from a root pointer, returning the address
of the node the key path leads to (no flag or value check).  This is the common
walk of `Trie::Get` and the lookup phase of `Trie::Remove`. -/
def walkAddr (h : Heap) : Option Nat → List Char → Option Nat
  | root, [] => root
  | none, _ :: _ => none
  | some a, c :: rest =>
    match hget h a with
    | none => none
    | some n => walkAddr h (findChild n.children c) rest

/-- Mirrors `Trie::Get<T>`: walk the key; at the terminal node require
`is_value_node_` and a successful `dynamic_pointer_cast<TrieNodeWithValue<T>>`
(modelled as the stored tag equalling the requested tag).  Every miss —
null root, missing child, cleared flag, type mismatch — yields `none`. -/
def getT (h : Heap) : Option Nat → List Char → Nat → Option Nat
  | none, _, _ => none
  | some a, [], tag =>
    match hget h a with
    | none => none
    | some n =>
      if n.flag then
        match n.val with
        | some (t0, x) => if t0 = tag then some x else none
        | none => none
      else none
  | some a, c :: rest, tag =>
    match hget h a with
    | none => none
    | some n => getT h (findChild n.children c) rest tag

/-- Mirrors the per-character loop and terminal handling of `Trie::Put<T>`,
restructured bottom-up (the C++ builds the cloned path top-down and then mutates
the still-private nodes; the resulting object graph is the same, fresh path nodes
plus shared off-path children, so the heap differs from the C++ run only in
allocation order and in not allocating the terminal clone that the C++ code
discards when it replaces it by a `TrieNodeWithValue`).
`cur` is the node (if any) of the previous version at the current position.
Terminal behaviour, exactly as in the source:
* no previous node: a fresh plain node is created, has no flag, and is replaced
  by a `TrieNodeWithValue` holding the new value;
* previous node whose clone has the flag clear: replaced by a
  `TrieNodeWithValue` with the same children and the new value;
* clone has the flag set and `dynamic_pointer_cast<TrieNodeWithValue<T>>`
  succeeds (same tag): the clone's value is overwritten;
* clone has the flag set but the cast fails (different tag): the `if (node)`
  guard skips the assignment and the clone keeps the old value. -/
def putAux (h : Heap) (cur : Option Node) (key : List Char) (tag v : Nat) :
    Option (Heap × Nat) :=
  match key, cur with
  | [], none =>
    some (h ++ [⟨[], true, some (tag, v)⟩], h.length)
  | [], some n =>
    let c := cloneNode n
    if c.flag then
      match c.val with
      | some (t0, _) =>
        if t0 = tag then some (h ++ [⟨c.children, true, some (tag, v)⟩], h.length)
        else some (h ++ [c], h.length)
      | none => some (h ++ [c], h.length)
    else
      some (h ++ [⟨c.children, true, some (tag, v)⟩], h.length)
  | ch :: rest, none =>
    match putAux h none rest tag v with
    | none => none
    | some (h1, childAddr) =>
      some (h1 ++ [⟨[(ch, childAddr)], false, none⟩], h1.length)
  | ch :: rest, some n =>
    let c := cloneNode n
    match findChild c.children ch with
    | some a =>
      match hget h a with
      | none => none
      | some oldc =>
        match putAux h (some oldc) rest tag v with
        | none => none
        | some (h1, childAddr) =>
          some (h1 ++ [⟨setChild c.children ch childAddr, c.flag, c.val⟩], h1.length)
    | none =>
      match putAux h none rest tag v with
      | none => none
      | some (h1, childAddr) =>
        some (h1 ++ [⟨setChild c.children ch childAddr, c.flag, c.val⟩], h1.length)

/-- Mirrors `Trie::Put<T>`.  The returned address is the new root.
For an empty key the loop body never runs, so `pre` stays `nullptr`; if the
cloned root does not have the value flag the code executes
`pre->children_[pre_char] = ...`, a null-pointer dereference, modelled as
`none`.  (If the cloned root has the flag, the value is overwritten in place
on the clone — or silently kept on a failed cast — and no fault occurs.) -/
def putT (h : Heap) (root : Option Nat) (key : List Char) (tag v : Nat) :
    Option (Heap × Nat) :=
  match key with
  | [] =>
    match root with
    | none => none
    | some r =>
      match hget h r with
      | none => none
      | some n =>
        let c := cloneNode n
        if c.flag then
          match c.val with
          | some (t0, _) =>
            if t0 = tag then some (h ++ [⟨c.children, true, some (tag, v)⟩], h.length)
            else some (h ++ [c], h.length)
          | none => some (h ++ [c], h.length)
        else none
  | _ :: _ =>
    match root with
    | none => putAux h none key tag v
    | some r =>
      match hget h r with
      | none => none
      | some n => putAux h (some n) key tag v

/-- Result of the path-cloning loop of `Trie::Remove`. -/
inductive Walk where
  | unchanged : Walk
  | fault : Walk
  | ok : Heap → List (Nat × Char) → Nat → Walk

/-- Mirrors the `for (auto ch : key)` loop of `Trie::Remove`: for each character,
if the current (freshly cloned) parent has no matching child, `return *this`
(`unchanged`); otherwise clone the child, link the clone under the parent,
record `(parent, ch)` on the path vector, and descend into the clone. -/
def removeWalk : Heap → Nat → List (Nat × Char) → List Char → Walk
  | h, parent, path, [] => .ok h path parent
  | h, parent, path, c :: rest =>
    match hget h parent with
    | none => .fault
    | some n =>
      match findChild n.children c with
      | none => .unchanged
      | some childAddr =>
        match hget h childAddr with
        | none => .fault
        | some cn =>
          removeWalk
            (setNode (h ++ [cloneNode cn]) parent
              { n with children := setChild n.children c h.length })
            h.length (path ++ [(parent, c)]) rest

/-- Mirrors the `while (!path.empty())` loop at the end of `Trie::Remove`
(the list argument is the path in pop order, i.e. reversed): pop the last
`(node, ch)`; if `node` no longer has a child at `ch`, continue; if the child
is a non-value node without children, erase it and continue; otherwise break. -/
def pruneLoop : Heap → List (Nat × Char) → Option Heap
  | h, [] => some h
  | h, (p, c) :: rest =>
    match hget h p with
    | none => none
    | some n =>
      match findChild n.children c with
      | none => pruneLoop h rest
      | some ca =>
        match hget h ca with
        | none => none
        | some cn =>
          if !cn.flag && cn.children.isEmpty then
            pruneLoop (setNode h p { n with children := eraseChild n.children c }) rest
          else
            some h

/-- Mirrors `Trie::Remove`.  Returns `some (new heap, new root pointer)`, where
the root pointer equals the original root exactly on the `return *this` paths
(null root, missing path, terminal clone without the value flag); on those paths
the abandoned clones are dropped (the C++ `shared_ptr`s free them), so the
original heap is returned.  Returns `none` on the one faulting path: an empty
key whose (cloned) root has the flag set and no children, where the C++ code
executes `path.pop_back()` on an empty vector. -/
def removeT (h : Heap) (root : Option Nat) (key : List Char) :
    Option (Heap × Option Nat) :=
  match root with
  | none => some (h, none)
  | some r0 =>
    match hget h r0 with
    | none => none
    | some rn =>
      match removeWalk (h ++ [cloneNode rn]) h.length [] key with
      | .fault => none
      | .unchanged => some (h, some r0)
      | .ok h2 path pfin =>
        match hget h2 pfin with
        | none => none
        | some pn =>
          if pn.flag then
            let h3 := setNode h2 pfin { pn with flag := false }
            if pn.children.isEmpty then
              match path with
              | [] => none
              | _ :: _ =>
                match pruneLoop h3 path.dropLast.reverse with
                | none => none
                | some h4 => some (h4, some h.length)
            else
              let pAddr := h3.length
              let h4 := h3 ++ [plainNode pn.children]
              match path.getLast? with
              | some (prev, pc) =>
                match hget h4 prev with
                | none => none
                | some prevN =>
                  match
                    pruneLoop
                      (setNode h4 prev
                        { prevN with children := setChild prevN.children pc pAddr })
                      path.reverse with
                  | none => none
                  | some h5 => some (h5, some h.length)
              | none =>
                match pruneLoop h4 path.reverse with
                | none => none
                | some h5 => some (h5, some pAddr)
          else
            some (h, some r0)

/-- State of a `TrieStore`: the shared node heap, the `snapshots_` vector
(each entry a root pointer), and the `version_` atomic counter.
`snapshots_{1}` value-initialises the vector with one default `Trie`
(null root), and `version_` starts at zero and — in the source as written —
is never stored to again. -/
structure StoreState where
  heap : Heap
  snapshots : List (Option Nat)
  version : Nat
deriving DecidableEq, Repr

/-- A freshly constructed `TrieStore`. -/
def initStore : StoreState := ⟨[], [none], 0⟩

/-- Mirrors `TrieStore::get_version`: `version_.load()`. -/
def getVersion (s : StoreState) : Nat := s.version

/-- Index into the snapshots vector. -/
def snapAt : List (Option Nat) → Nat → Option (Option Nat)
  | [], _ => none
  | r :: _, 0 => some r
  | _ :: t, v + 1 => snapAt t v

/-- Mirrors `TrieStore::Get<T>`: resolve the version (the `size_t(-1)` "latest"
sentinel is modelled by `none`), return `none` when out of range, otherwise
delegate to the snapshot's `Get`. -/
def storeGet (s : StoreState) (key : List Char) (tag : Nat) (version : Option Nat) :
    Option Nat :=
  let v := version.getD (s.snapshots.length - 1)
  match snapAt s.snapshots v with
  | none => none
  | some r => getT s.heap r key tag

/-- Mirrors `TrieStore::Put<T>` (single-threaded semantics): read the newest
snapshot, compute `Put`, append the result, and return `get_version()` —
which reads the never-incremented `version_` counter. -/
def storePut (s : StoreState) (key : List Char) (tag v : Nat) :
    Option (StoreState × Nat) :=
  match s.snapshots.getLast? with
  | none => none
  | some r =>
    match putT s.heap r key tag v with
    | none => none
    | some (h2, r2) =>
      some (⟨h2, s.snapshots ++ [some r2], s.version⟩, s.version)

/-- Mirrors `TrieStore::Remove`: compute `Remove` on the newest snapshot;
append a snapshot only when the result is not reference-equal to the newest
snapshot (`new_trie != snapshots_.back()` compares root pointers); return
`get_version()`. -/
def storeRemove (s : StoreState) (key : List Char) :
    Option (StoreState × Nat) :=
  match s.snapshots.getLast? with
  | none => none
  | some r =>
    match removeT s.heap r key with
    | none => none
    | some (h2, r2) =>
      if r2 ≠ r then some (⟨h2, s.snapshots ++ [r2], s.version⟩, s.version)
      else some (⟨h2, s.snapshots, s.version⟩, s.version)

/-- Boolean well-formedness of a heap: every child pointer stored in any node
is a live (non-dangling) address.  This holds for every heap reachable through
the API, where children only ever receive addresses of allocated nodes. -/
def heapClosedB (h : Heap) : Bool :=
  h.all fun n => n.children.all fun p => decide (p.2 < h.length)

/-- Boolean well-formedness of a root pointer: null or live. -/
def rootOkB (h : Heap) : Option Nat → Bool
  | none => true
  | some r => decide (r < h.length)

/-- The Boolean test `onPath q k` holds when the node addressed by key `q` lies
on the path from the root to the terminal node of key `k`, i.e. when `q` is a
prefix of `k`. -/
def onPath : List Char → List Char → Bool
  | [], _ => true
  | _ :: _, [] => false
  | c :: q, d :: k => if c = d then onPath q k else false

/-- The terminal check of `Trie::Get<T>` at a node address: value flag set and
the stored value of the requested type. -/
def valAt (h : Heap) (a : Nat) (tag : Nat) : Option Nat :=
  match hget h a with
  | none => none
  | some n =>
    if n.flag then
      match n.val with
      | some (t0, x) => if t0 = tag then some x else none
      | none => none
    else none

/-- Every child pointer of the node is a live address of `h` resp. below `len`. -/
def nodeBound (len : Nat) (n : Node) : Prop :=
  ∀ p ∈ n.children, p.2 < len

/-- Propositional form of `heapClosedB`. -/
def heapClosedP (h : Heap) : Prop :=
  ∀ n ∈ h, nodeBound h.length n

/-- Heaps `h` and `h2` agree on all addresses below `N` (the old region). -/
def lowAgrees (N : Nat) (h h2 : Heap) : Prop :=
  ∀ a, a < N → hget h2 a = hget h a

/-- Description of the freshly cloned path built by the loop of `Trie::Remove`
relating the new heap `hf` to the old heap `h0`: `spine h0 hf ks tl A r At rt`
says that following the characters `ks` from the fresh node at `A` (whose old
counterpart is at `r`) one passes exactly through the freshly allocated
addresses recorded in the path entries `tl`, each fresh node carrying the old
node's children with only the next path character redirected to the next fresh
address, ending at the fresh terminal `At` whose old counterpart is `rt`. -/
def spine (h0 hf : Heap) : List Char → List (Nat × Char) → Nat → Nat → Nat → Nat → Prop
  | [], tl, A, r, At, rt => tl = [] ∧ A = At ∧ r = rt
  | c :: ks, tl, A, r, At, rt =>
    ∃ n a A2 r2 tl2,
      tl = (A, c) :: tl2 ∧
      hget h0 r = some n ∧ hget hf A = some a ∧
      a.children = setChild n.children c A2 ∧
      findChild n.children c = some r2 ∧ A < A2 ∧
      spine h0 hf ks tl2 A2 r2 At rt

/-! Concrete tries used to evaluate the operations at specific inputs.
`heapA` with root 1 is the trie produced by `Put("a", 5)` (value of tag 0)
on the empty trie; `heapAR` with root 2 is the trie produced by a subsequent
`Remove("a")`; `heapAR2` with root 4 by a second `Remove("a")`. -/

/-- Heap after `Put("a", 5)` on the empty trie: value node at address 0,
root at address 1. -/
def heapA : Heap :=
  [⟨[], true, some (0, 5)⟩, ⟨[('a', 0)], false, none⟩]

/-- Heap after `Remove("a")` on `(heapA, root 1)`: the new root (address 2)
still holds a child for `'a'` — the flag-cleared terminal clone at address 3 —
because `path.pop_back()` discards the parent entry before the pruning loop
runs, so the loop's first examined child is never the dead node. -/
def heapAR : Heap :=
  [⟨[], true, some (0, 5)⟩, ⟨[('a', 0)], false, none⟩,
   ⟨[('a', 3)], false, none⟩, ⟨[], false, some (0, 5)⟩]

/-- Heap after a second `Remove("a")` on `(heapAR, root 2)`: cloning the dead
node at address 3 runs `TrieNodeWithValue::Clone`, whose constructor sets the
flag again, so the removal proceeds and allocates yet another root. -/
def heapAR2 : Heap :=
  [⟨[], true, some (0, 5)⟩, ⟨[('a', 0)], false, none⟩,
   ⟨[('a', 3)], false, none⟩, ⟨[], false, some (0, 5)⟩,
   ⟨[('a', 5)], false, none⟩, ⟨[], false, some (0, 5)⟩]

/-- C1: the claim says `get_version()` equals the snapshot count minus one and
that every `TrieStore::Put` strictly increases it by 1 and returns the new
version.  The code never stores to `version_`: after `Put("a", 5)` on a fresh
store the snapshot sequence has two entries (newest committed index 1), yet
`Put` returns 0 and `get_version()` still reads 0. -/
theorem claim_c1 :
    storePut initStore ['a'] 0 5 = some (⟨heapA, [none, some 1], 0⟩, 0) ∧
    getVersion ⟨heapA, [none, some 1], 0⟩ = 0 ∧
    (StoreState.mk heapA [none, some 1] 0).snapshots.length - 1 = 1 := by
  refine ⟨?_, rfl, rfl⟩
  rfl

/-- C2: the claim says `t.Put(k, v).Get(k)` returns `v` even when `k` already
held a value of another type.  In `heapA` the key `"a"` holds the tag-0 value
5; putting the tag-1 value 7 on it leaves the old value in place (the
`dynamic_pointer_cast<TrieNodeWithValue<T>>` in `Put` fails and the `if (node)`
guard silently skips the overwrite), so `Get<T>` on the result misses and the
old tag-0 value is still there. -/
theorem claim_c2 :
    getT heapA (some 1) ['a'] 0 = some 5 ∧
    putT heapA (some 1) ['a'] 1 7 =
      some (heapA ++ [⟨[], true, some (0, 5)⟩, ⟨[('a', 2)], false, none⟩], 3) ∧
    getT (heapA ++ [⟨[], true, some (0, 5)⟩, ⟨[('a', 2)], false, none⟩])
      (some 3) ['a'] 1 = none ∧
    getT (heapA ++ [⟨[], true, some (0, 5)⟩, ⟨[('a', 2)], false, none⟩])
      (some 3) ['a'] 0 = some 5 := by
  refine ⟨rfl, ?_, rfl, rfl⟩
  rfl

/-- C3: the claim says `Put` accepts the empty key on every trie without
fault.  With an empty key the loop of `Put` never runs and `pre` remains
`nullptr`; since the (cloned) root of the empty trie — and of every trie the
API can build — lacks the value flag, the code dereferences `pre`: a fault.
Both on the empty trie and on `heapA` the empty-key `Put` faults. -/
theorem claim_c3 :
    putT [] none [] 0 5 = none ∧ putT heapA (some 1) [] 0 7 = none := by
  exact ⟨rfl, rfl⟩

/-- C4: the claim says removing the last key detaches the dead terminal node
and prunes the chain, leaving an empty-equivalent trie.  Removing `"a"` from
`(heapA, root 1)` — the only key — instead returns root 2 whose children map
still binds `'a'` to the dead node at address 3 (valueless, childless):
`path.pop_back()` removes the parent entry before the pruning loop, so the
loop immediately breaks and nothing is ever detached. -/
theorem claim_c4 :
    removeT heapA (some 1) ['a'] = some (heapAR, some 2) ∧
    hget heapAR 2 = some ⟨[('a', 3)], false, none⟩ ∧
    hget heapAR 3 = some ⟨[], false, some (0, 5)⟩ := by
  refine ⟨?_, rfl, rfl⟩
  rfl

/-- C6: the claim says `Remove` returns a reference-equal trie if and only if
the trie is empty, the path is missing, or the terminal node carries no value.
In `(heapAR, root 2)` the path of `"a"` exists and its terminal node (address
3) has the value flag cleared — it carries no retrievable value (`Get`
misses) — yet `Remove("a")` returns a fresh root (address 4), not the same
reference: cloning the dead node resurrects its flag. -/
theorem claim_c6 :
    walkAddr heapAR (some 2) ['a'] = some 3 ∧
    hget heapAR 3 = some ⟨[], false, some (0, 5)⟩ ∧
    getT heapAR (some 2) ['a'] 0 = none ∧
    removeT heapAR (some 2) ['a'] = some (heapAR2, some 4) ∧
    (some 4 : Option Nat) ≠ some 2 := by
  refine ⟨rfl, rfl, rfl, ?_, by decide⟩
  rfl

/-- C8: the claim says `t.Remove(k).Remove(k)` is reference-equal to
`t.Remove(k)`.  Starting from `(heapA, root 1)` (single key `"a"`), the first
`Remove("a")` yields root 2; the second `Remove("a")` yields root 4 — a fresh
root, not the same reference — because the dead terminal node left behind by
the first removal is cloned through `TrieNodeWithValue::Clone`, which sets the
value flag again. -/
theorem claim_c8 :
    removeT heapA (some 1) ['a'] = some (heapAR, some 2) ∧
    removeT heapAR (some 2) ['a'] = some (heapAR2, some 4) ∧
    (some 4 : Option Nat) ≠ some 2 := by
  refine ⟨?_, ?_, by decide⟩ <;> rfl

/-- The lookup of `Trie::Get` is the address walk followed by the terminal
value check. -/
theorem getT_eq_walk (h : Heap) :
    ∀ (key : List Char) (root : Option Nat) (tag : Nat),
      getT h root key tag = (walkAddr h root key).bind fun a => valAt h a tag := by
  intro key
  induction key with
  | nil =>
    intro root tag
    cases root with
    | none => rfl
    | some a => simp [getT, walkAddr, valAt]
  | cons c rest ih =>
    intro root tag
    cases root with
    | none => rfl
    | some a =>
      cases hg : hget h a with
      | none => simp [getT, walkAddr, hg]
      | some n => simp [getT, walkAddr, hg, ih]

/-- C9: `Trie::Get<T>` is total and returns an absent result on every miss:
null root, a key character with no matching child (the walk fails), a terminal
node with the value flag cleared, or a stored value of a different type — and
the type-mismatch result is the same `none` as a missing key. -/
theorem claim_c9 (h : Heap) (root : Option Nat) (key : List Char) (tag : Nat) :
    (root = none → getT h root key tag = none) ∧
    (walkAddr h root key = none → getT h root key tag = none) ∧
    (∀ a n, walkAddr h root key = some a → hget h a = some n → n.flag = false →
      getT h root key tag = none) ∧
    (∀ a n t0 x, walkAddr h root key = some a → hget h a = some n →
      n.val = some (t0, x) → t0 ≠ tag → getT h root key tag = none) := by
  refine ⟨?_, ?_, ?_, ?_⟩
  · rintro rfl
    cases key <;> rfl
  · intro hw
    rw [getT_eq_walk, hw]
    rfl
  · intro a n hw hn hflag
    rw [getT_eq_walk, hw]
    simp [valAt, hn, hflag]
  · intro a n t0 x hw hn hv hne
    rw [getT_eq_walk, hw]
    cases hflag : n.flag <;> simp [valAt, hn, hflag, hv, hne]

/-- C9 witness: the four miss shapes at concrete inputs — missing child,
cleared flag (dead node), type mismatch, and null root. -/
theorem claim_c9_witness :
    getT heapA (some 1) ['b'] 0 = none ∧
    getT heapAR (some 2) ['a'] 0 = none ∧
    getT heapA (some 1) ['a'] 1 = none ∧
    getT heapA none ['a'] 0 = none := by
  refine ⟨?_, ?_, ?_, ?_⟩
  · exact (claim_c9 heapA (some 1) ['b'] 0).2.1 (by rfl)
  · exact (claim_c9 heapAR (some 2) ['a'] 0).2.2.1 3 ⟨[], false, some (0, 5)⟩ rfl rfl rfl
  · exact (claim_c9 heapA (some 1) ['a'] 1).2.2.2 0 ⟨[], true, some (0, 5)⟩ 0 5 rfl rfl rfl
      (by decide)
  · exact (claim_c9 heapA none ['a'] 0).1 rfl

/-- C7: the snapshot sequence starts as the single empty trie at index 0, and
every completed `TrieStore::Put` / `TrieStore::Remove` only ever appends to it
(the old sequence is a prefix of the new one) and keeps it nonempty.
(`TrieStore::Get` and `get_version` do not touch the sequence at all: in the
model they are read-only functions of the state.) -/
theorem claim_c7 :
    initStore.snapshots = [none] ∧
    (∀ s key tag v s2 rv, storePut s key tag v = some (s2, rv) →
      (∃ t, s2.snapshots = s.snapshots ++ t) ∧ s2.snapshots ≠ []) ∧
    (∀ s key s2 rv, storeRemove s key = some (s2, rv) →
      (∃ t, s2.snapshots = s.snapshots ++ t) ∧ s2.snapshots ≠ []) := by
  have hne : ∀ (l : List (Option Nat)) (r : Option Nat), l.getLast? = some r → l ≠ [] := by
    intro l r hl
    cases l with
    | nil => simp at hl
    | cons x t => simp
  refine ⟨rfl, ?_, ?_⟩
  · intro s key tag v s2 rv hput
    unfold storePut at hput
    cases hg : s.snapshots.getLast? with
    | none => rw [hg] at hput; simp at hput
    | some r =>
      rw [hg] at hput
      dsimp only at hput
      cases hp : putT s.heap r key tag v with
      | none => rw [hp] at hput; simp at hput
      | some pr =>
        rw [hp] at hput
        obtain ⟨h2, r2⟩ := pr
        simp only [Option.some.injEq, Prod.mk.injEq] at hput
        obtain ⟨hs2, -⟩ := hput
        rw [← hs2]
        exact ⟨⟨[some r2], rfl⟩, by simp [hne s.snapshots r hg]⟩
  · intro s key s2 rv hrem
    unfold storeRemove at hrem
    cases hg : s.snapshots.getLast? with
    | none => rw [hg] at hrem; simp at hrem
    | some r =>
      rw [hg] at hrem
      dsimp only at hrem
      cases hp : removeT s.heap r key with
      | none => rw [hp] at hrem; simp at hrem
      | some pr =>
        rw [hp] at hrem
        obtain ⟨h2, r2⟩ := pr
        dsimp only at hrem
        by_cases hr : r2 ≠ r
        · rw [if_pos hr] at hrem
          simp only [Option.some.injEq, Prod.mk.injEq] at hrem
          obtain ⟨hs2, -⟩ := hrem
          rw [← hs2]
          exact ⟨⟨[r2], rfl⟩, by simp [hne s.snapshots r hg]⟩
        · rw [if_neg hr] at hrem
          simp only [Option.some.injEq, Prod.mk.injEq] at hrem
          obtain ⟨hs2, -⟩ := hrem
          rw [← hs2]
          exact ⟨⟨[], by simp⟩, by simp [hne s.snapshots r hg]⟩

/-! Heap and children-map lemmas. -/

theorem hget_lt {h : Heap} {a : Nat} {n : Node} (hg : hget h a = some n) :
    a < h.length := by
  induction h generalizing a with
  | nil => simp [hget] at hg
  | cons m t ih =>
    cases a with
    | zero => simp
    | succ b => exact Nat.succ_lt_succ (ih hg)

theorem lt_hget {h : Heap} {a : Nat} (ha : a < h.length) : ∃ n, hget h a = some n := by
  induction h generalizing a with
  | nil => simp at ha
  | cons m t ih =>
    cases a with
    | zero => exact ⟨m, rfl⟩
    | succ b => exact ih (Nat.lt_of_succ_lt_succ ha)

theorem hget_mem {h : Heap} {a : Nat} {n : Node} (hg : hget h a = some n) : n ∈ h := by
  induction h generalizing a with
  | nil => simp [hget] at hg
  | cons m t ih =>
    cases a with
    | zero =>
      simp only [hget, Option.some.injEq] at hg
      simp [hg]
    | succ b => exact List.mem_cons_of_mem m (ih hg)

theorem hget_append_left {h : Heap} (t : Heap) {a : Nat} (ha : a < h.length) :
    hget (h ++ t) a = hget h a := by
  induction h generalizing a with
  | nil => simp at ha
  | cons m s ih =>
    cases a with
    | zero => rfl
    | succ b => exact ih (Nat.lt_of_succ_lt_succ ha)

theorem hget_append_len (h : Heap) (n : Node) (t : Heap) :
    hget (h ++ n :: t) h.length = some n := by
  induction h with
  | nil => rfl
  | cons m s ih => exact ih

theorem length_setNode (h : Heap) (a : Nat) (m : Node) :
    (setNode h a m).length = h.length := by
  induction h generalizing a with
  | nil => rfl
  | cons n t ih =>
    cases a with
    | zero => rfl
    | succ b => simpa [setNode] using ih b

theorem hget_setNode_ne {h : Heap} {a b : Nat} (m : Node) (hab : a ≠ b) :
    hget (setNode h b m) a = hget h a := by
  induction h generalizing a b with
  | nil => rfl
  | cons n t ih =>
    cases b with
    | zero =>
      cases a with
      | zero => exact absurd rfl hab
      | succ a2 => rfl
    | succ b2 =>
      cases a with
      | zero => rfl
      | succ a2 => exact ih fun he => hab (by rw [he])

theorem hget_setNode_self {h : Heap} {b : Nat} (m : Node) (hb : b < h.length) :
    hget (setNode h b m) b = some m := by
  induction h generalizing b with
  | nil => simp at hb
  | cons n t ih =>
    cases b with
    | zero => rfl
    | succ b2 => exact ih (Nat.lt_of_succ_lt_succ hb)

theorem findChild_mem {cs : List (Char × Nat)} {c : Char} {a : Nat}
    (hf : findChild cs c = some a) : (c, a) ∈ cs := by
  induction cs with
  | nil => simp [findChild] at hf
  | cons p rest ih =>
    obtain ⟨d, b⟩ := p
    rw [findChild] at hf
    by_cases hdc : d = c
    · rw [if_pos hdc] at hf
      injection hf with hba
      subst hdc
      subst hba
      exact List.mem_cons_self _ _
    · rw [if_neg hdc] at hf
      exact List.mem_cons_of_mem _ (ih hf)

theorem findChild_setChild_self (cs : List (Char × Nat)) (c : Char) (a : Nat) :
    findChild (setChild cs c a) c = some a := by
  induction cs with
  | nil => simp [setChild, findChild]
  | cons p rest ih =>
    obtain ⟨d, b⟩ := p
    by_cases hdc : d = c
    · subst hdc
      simp [setChild, findChild]
    · rw [setChild, if_neg hdc, findChild, if_neg hdc]
      exact ih

theorem findChild_setChild_ne {cs : List (Char × Nat)} {c d : Char} {a : Nat}
    (hne : d ≠ c) : findChild (setChild cs c a) d = findChild cs d := by
  induction cs with
  | nil =>
    simp only [setChild, findChild]
    rw [if_neg (fun he => hne he.symm)]
  | cons p rest ih =>
    obtain ⟨e, b⟩ := p
    by_cases hec : e = c
    · subst hec
      rw [setChild, if_pos rfl, findChild, findChild,
        if_neg (fun he => hne he.symm), if_neg (fun he => hne he.symm)]
    · rw [setChild, if_neg hec, findChild, findChild]
      by_cases hed : e = d
      · rw [if_pos hed, if_pos hed]
      · rw [if_neg hed, if_neg hed]
        exact ih

theorem setChild_ne_nil (cs : List (Char × Nat)) (c : Char) (a : Nat) :
    setChild cs c a ≠ [] := by
  cases cs with
  | nil => simp [setChild]
  | cons p rest =>
    obtain ⟨d, b⟩ := p
    by_cases hdc : d = c
    · simp [setChild, hdc]
    · simp [setChild, hdc]

theorem setChild_setChild (cs : List (Char × Nat)) (c : Char) (a b : Nat) :
    setChild (setChild cs c a) c b = setChild cs c b := by
  induction cs with
  | nil => simp [setChild]
  | cons p rest ih =>
    obtain ⟨d, e⟩ := p
    by_cases hdc : d = c
    · simp [setChild, hdc]
    · rw [setChild, if_neg hdc, setChild, if_neg hdc, setChild, if_neg hdc, ih]

theorem mem_setChild {cs : List (Char × Nat)} {c : Char} {a : Nat}
    {p : Char × Nat} (hp : p ∈ setChild cs c a) : p = (c, a) ∨ p ∈ cs := by
  induction cs with
  | nil => simpa [setChild] using hp
  | cons q rest ih =>
    obtain ⟨d, b⟩ := q
    by_cases hdc : d = c
    · rw [setChild, if_pos hdc] at hp
      rcases List.mem_cons.1 hp with h1 | h1
      · exact Or.inl h1
      · exact Or.inr (List.mem_cons_of_mem _ h1)
    · rw [setChild, if_neg hdc] at hp
      rcases List.mem_cons.1 hp with h1 | h1
      · exact Or.inr (by simp [h1])
      · rcases ih h1 with h2 | h2
        · exact Or.inl h2
        · exact Or.inr (List.mem_cons_of_mem _ h2)

theorem heapClosedB_iff (h : Heap) : heapClosedB h = true ↔ heapClosedP h := by
  unfold heapClosedB heapClosedP nodeBound
  simp [List.all_eq_true]

theorem closedP_get {h : Heap} {a : Nat} {n : Node} (H : heapClosedP h)
    (hg : hget h a = some n) : nodeBound h.length n :=
  H n (hget_mem hg)

/-! Stability: reads from the old region are unchanged in any heap that
agrees with the old heap below its length (the copy-on-write operations
never write there). -/

theorem walk_stable {h0 hf : Heap} (H0 : heapClosedP h0)
    (Ag : lowAgrees h0.length h0 hf) :
    ∀ (key : List Char) (ro : Option Nat), (∀ r, ro = some r → r < h0.length) →
      walkAddr hf ro key = walkAddr h0 ro key := by
  intro key
  induction key with
  | nil =>
    intro ro hro
    cases ro <;> rfl
  | cons c rest ih =>
    intro ro hro
    cases ro with
    | none => rfl
    | some a =>
      have ha : a < h0.length := hro a rfl
      rw [walkAddr, walkAddr, Ag a ha]
      cases hg : hget h0 a with
      | none => rfl
      | some n =>
        exact ih (findChild n.children c) fun r hr =>
          closedP_get H0 hg _ (findChild_mem hr)

theorem getT_stable {h0 hf : Heap} (H0 : heapClosedP h0)
    (Ag : lowAgrees h0.length h0 hf) :
    ∀ (key : List Char) (ro : Option Nat) (tag : Nat),
      (∀ r, ro = some r → r < h0.length) →
      getT hf ro key tag = getT h0 ro key tag := by
  intro key
  induction key with
  | nil =>
    intro ro tag hro
    cases ro with
    | none => rfl
    | some a =>
      have ha : a < h0.length := hro a rfl
      rw [getT, getT, Ag a ha]
  | cons c rest ih =>
    intro ro tag hro
    cases ro with
    | none => rfl
    | some a =>
      have ha : a < h0.length := hro a rfl
      rw [getT, getT, Ag a ha]
      cases hg : hget h0 a with
      | none => rfl
      | some n =>
        exact ih (findChild n.children c) tag fun r hr =>
          closedP_get H0 hg _ (findChild_mem hr)

/-! Lemmas about the cloned-path description `spine`. -/

theorem spine_le {h0 hf : Heap} :
    ∀ {ks : List Char} {tl A r At rt}, spine h0 hf ks tl A r At rt → A ≤ At := by
  intro ks
  induction ks with
  | nil =>
    intro tl A r At rt hsp
    exact hsp.2.1.le
  | cons c ks2 ih =>
    intro tl A r At rt hsp
    obtain ⟨n, a, A2, r2, tl2, htl, hr, hA, hch, hfc, hlt, hsp2⟩ := hsp
    exact le_of_lt (lt_of_lt_of_le hlt (ih hsp2))

theorem spine_mono {h0 hf hf2 : Heap} :
    ∀ {ks : List Char} {tl A r At rt}, spine h0 hf ks tl A r At rt →
      (∀ a, a < At → hget hf2 a = hget hf a) →
      spine h0 hf2 ks tl A r At rt := by
  intro ks
  induction ks with
  | nil =>
    intro tl A r At rt hsp hag
    exact hsp
  | cons c ks2 ih =>
    intro tl A r At rt hsp hag
    obtain ⟨n, a, A2, r2, tl2, htl, hr, hA, hch, hfc, hlt, hsp2⟩ := hsp
    have hAAt : A < At := lt_of_lt_of_le hlt (spine_le hsp2)
    exact ⟨n, a, A2, r2, tl2, htl, hr, (hag A hAAt).trans hA, hch, hfc, hlt, ih hsp2 hag⟩

theorem spine_entries {h0 hf : Heap} :
    ∀ {ks : List Char} {tl A r At rt}, spine h0 hf ks tl A r At rt →
      ∀ e ∈ tl, A ≤ e.1 ∧ e.1 < At := by
  intro ks
  induction ks with
  | nil =>
    intro tl A r At rt hsp e he
    rw [hsp.1] at he
    simp at he
  | cons c ks2 ih =>
    intro tl A r At rt hsp e he
    obtain ⟨n, a, A2, r2, tl2, htl, hr, hA, hch, hfc, hlt, hsp2⟩ := hsp
    subst htl
    rcases List.mem_cons.1 he with h1 | h1
    · rw [h1]
      exact ⟨le_refl A, lt_of_lt_of_le hlt (spine_le hsp2)⟩
    · obtain ⟨h2, h3⟩ := ih hsp2 e h1
      exact ⟨le_of_lt (lt_of_lt_of_le hlt h2), h3⟩

theorem spine_snoc_elim {h0 hf : Heap} :
    ∀ {ks : List Char} {c : Char} {tl A r At rt},
      spine h0 hf (ks ++ [c]) tl A r At rt →
      ∃ tl2 Am rm om am,
        tl = tl2 ++ [(Am, c)] ∧ spine h0 hf ks tl2 A r Am rm ∧
        hget h0 rm = some om ∧ hget hf Am = some am ∧
        am.children = setChild om.children c At ∧
        findChild om.children c = some rt ∧ Am < At := by
  intro ks
  induction ks with
  | nil =>
    intro c tl A r At rt hsp
    obtain ⟨n, a, A2, r2, tl2, htl, hr, hA, hch, hfc, hlt, hsp2⟩ := hsp
    obtain ⟨htl2, hA2, hr2⟩ := hsp2
    subst htl2
    subst hA2
    subst hr2
    exact ⟨[], A, r, n, a, by simp [htl], ⟨rfl, rfl, rfl⟩, hr, hA, hch, hfc, hlt⟩
  | cons k ks2 ih =>
    intro c tl A r At rt hsp
    obtain ⟨n, a, A2, r2, tl2, htl, hr, hA, hch, hfc, hlt, hsp2⟩ := hsp
    obtain ⟨tl3, Am, rm, om, am, htl3, hsp3, hrm, hAm, hchm, hfcm, hltm⟩ := ih hsp2
    refine ⟨(A, k) :: tl3, Am, rm, om, am, ?_, ?_, hrm, hAm, hchm, hfcm, hltm⟩
    · rw [htl, htl3]
      rfl
    · exact ⟨n, a, A2, r2, tl3, rfl, hr, hA, hch, hfc, hlt, hsp3⟩

theorem spine_snoc_in {h0 hf : Heap} :
    ∀ {ks : List Char} {tl A r Am rm} (c : Char) {At rt : Nat} {om am : Node},
      spine h0 hf ks tl A r Am rm →
      hget h0 rm = some om → hget hf Am = some am →
      am.children = setChild om.children c At →
      findChild om.children c = some rt → Am < At →
      spine h0 hf (ks ++ [c]) (tl ++ [(Am, c)]) A r At rt := by
  intro ks
  induction ks with
  | nil =>
    intro tl A r Am rm c At rt om am hsp hrm hAm hchm hfcm hltm
    obtain ⟨htl, hA, hr⟩ := hsp
    subst htl
    subst hA
    subst hr
    exact ⟨om, am, At, rt, [], rfl, hrm, hAm, hchm, hfcm, hltm, rfl, rfl, rfl⟩
  | cons k ks2 ih =>
    intro tl A r Am rm c At rt om am hsp hrm hAm hchm hfcm hltm
    obtain ⟨n, a, A2, r2, tl2, htl, hr, hA, hch, hfc, hlt, hsp2⟩ := hsp
    subst htl
    exact ⟨n, a, A2, r2, tl2 ++ [(Am, c)], rfl, hr, hA, hch, hfc, hlt,
      ih c hsp2 hrm hAm hchm hfcm hltm⟩

theorem spine_adjacent {h0 hf : Heap} :
    ∀ {ks : List Char} {tl A r At rt}, spine h0 hf ks tl A r At rt →
      ∀ (xs : List (Nat × Char)) (p : Nat) (c : Char) (q : Nat) (d : Char) ys,
        tl = xs ++ (p, c) :: (q, d) :: ys →
        ∃ np nq, hget hf p = some np ∧ findChild np.children c = some q ∧
          hget hf q = some nq ∧ nq.children ≠ [] := by
  intro ks
  induction ks with
  | nil =>
    intro tl A r At rt hsp xs p c q d ys htl
    rw [hsp.1] at htl
    exact absurd htl.symm (by simp)
  | cons k ks2 ih =>
    intro tl A r At rt hsp xs p c q d ys htl
    obtain ⟨n, a, A2, r2, tl2, htl2, hr, hA, hch, hfc, hlt, hsp2⟩ := hsp
    subst htl2
    cases xs with
    | nil =>
      simp only [List.nil_append, List.cons.injEq, Prod.mk.injEq] at htl
      obtain ⟨⟨hAp, hkc⟩, htl2⟩ := htl
      subst hAp
      subst hkc
      cases ks2 with
      | nil =>
        rw [hsp2.1] at htl2
        simp at htl2
      | cons k2 ks3 =>
        obtain ⟨n2, a2, A3, r3, tl3, htl3, hr2, hA2, hch2, hfc2, hlt2, hsp3⟩ := hsp2
        rw [htl3] at htl2
        simp only [List.cons.injEq, Prod.mk.injEq] at htl2
        obtain ⟨⟨hA2q, hk2d⟩, -⟩ := htl2
        subst hA2q
        refine ⟨a, a2, hA, ?_, hA2, ?_⟩
        · rw [hch]
          exact findChild_setChild_self _ _ _
        · rw [hch2]
          exact setChild_ne_nil _ _ _
    | cons e xs2 =>
      simp only [List.cons_append, List.cons.injEq] at htl
      exact ih hsp2 xs2 p c q d ys htl.2

/-- Walks along any key that is not a prefix of the removed key are identical
on the cloned trie and on the original: they leave the fresh spine at the
first deviating character and continue through shared old nodes. -/
theorem spine_walk {h0 hf : Heap} (H0 : heapClosedP h0)
    (Ag : lowAgrees h0.length h0 hf) :
    ∀ (ks : List Char) {tl A r At rt}, spine h0 hf ks tl A r At rt →
      r < h0.length →
      (∃ otn an, hget h0 rt = some otn ∧ hget hf At = some an ∧
        an.children = otn.children) →
      ∀ q, onPath q ks = false →
        walkAddr hf (some A) q = walkAddr h0 (some r) q := by
  intro ks
  induction ks with
  | nil =>
    intro tl A r At rt hsp hrlt hterm q hq
    obtain ⟨htl, hA, hr⟩ := hsp
    subst hA
    subst hr
    obtain ⟨otn, an, hotn, han, hcheq⟩ := hterm
    cases q with
    | nil => simp [onPath] at hq
    | cons c q2 =>
      rw [walkAddr, walkAddr, han, hotn]
      dsimp only
      rw [hcheq]
      cases hfc : findChild otn.children c with
      | none => cases q2 <;> rfl
      | some b =>
        have hb : b < h0.length := closedP_get H0 hotn _ (findChild_mem hfc)
        exact walk_stable H0 Ag q2 (some b) fun r2 hr2 => by
          injection hr2 with hr2
          rw [← hr2]
          exact hb
  | cons k ks2 ih =>
    intro tl A r At rt hsp hrlt hterm q hq
    obtain ⟨n, a, A2, r2, tl2, htl, hr, hA, hch, hfc, hlt, hsp2⟩ := hsp
    cases q with
    | nil => simp [onPath] at hq
    | cons c q2 =>
      rw [walkAddr, walkAddr, hA, hr]
      dsimp only
      rw [hch]
      by_cases hck : c = k
      · subst hck
        rw [findChild_setChild_self, hfc]
        have hr2lt : r2 < h0.length := closedP_get H0 hr _ (findChild_mem hfc)
        have hq2 : onPath q2 ks2 = false := by
          rw [onPath, if_pos rfl] at hq
          exact hq
        exact ih hsp2 hr2lt hterm q2 hq2
      · rw [findChild_setChild_ne hck]
        cases hfc2 : findChild n.children c with
        | none => cases q2 <;> rfl
        | some b =>
          have hb : b < h0.length := closedP_get H0 hr _ (findChild_mem hfc2)
          exact walk_stable H0 Ag q2 (some b) fun r3 hr3 => by
            injection hr3 with hr3
            rw [← hr3]
            exact hb

/-! Frame and structural-sharing lemmas for `Put`. -/

theorem walk_none (h : Heap) (q : List Char) : walkAddr h none q = none := by
  cases q <;> rfl

theorem nodeBound_mono {len len2 : Nat} {n : Node} (hle : len ≤ len2)
    (hb : nodeBound len n) : nodeBound len2 n :=
  fun p hp => lt_of_lt_of_le (hb p hp) hle

theorem closedP_snoc {h : Heap} {n : Node} (H : heapClosedP h)
    (hn : nodeBound (h.length + 1) n) : heapClosedP (h ++ [n]) := by
  intro m hm
  rcases List.mem_append.1 hm with h1 | h1
  · exact nodeBound_mono (by simp) (H m h1)
  · simp only [List.mem_singleton] at h1
    subst h1
    simpa using hn

theorem lowAgrees_of_ext (h t : Heap) : lowAgrees h.length h (h ++ t) :=
  fun _ ha => hget_append_left t ha

theorem onPath_cons_of {c : Char} {q2 ks : List Char}
    (h : onPath (c :: q2) (c :: ks) = false) : onPath q2 ks = false := by
  rw [onPath, if_pos rfl] at h
  exact h

theorem putAux_spec :
    ∀ (key : List Char) (h : Heap) (cur : Option Node) (ro : Option Nat)
      (tag v : Nat) (h1 : Heap) (a : Nat),
      heapClosedP h →
      (match ro, cur with
       | none, none => True
       | some r, some n => r < h.length ∧ hget h r = some n
       | _, _ => False) →
      putAux h cur key tag v = some (h1, a) →
      (∃ t, h1 = h ++ t) ∧ a < h1.length ∧ heapClosedP h1 ∧
        (∀ q, onPath q key = false → walkAddr h1 (some a) q = walkAddr h ro q) := by
  intro key
  induction key with
  | nil =>
    intro h cur ro tag v h1 a Hc Hro hput
    cases cur with
    | none =>
      cases ro with
      | some r => exact Hro.elim
      | none =>
        rw [putAux] at hput
        simp only [Option.some.injEq, Prod.mk.injEq] at hput
        obtain ⟨hh1, ha⟩ := hput
        subst hh1
        subst ha
        refine ⟨⟨_, rfl⟩, by simp, closedP_snoc Hc (by intro p hp; simp at hp), ?_⟩
        intro q hq
        cases q with
        | nil => simp [onPath] at hq
        | cons c q2 =>
          rw [walk_none, walkAddr, hget_append_len]
          dsimp only
          rw [show findChild [] c = none from rfl, walk_none]
    | some n =>
      cases ro with
      | none => exact Hro.elim
      | some r =>
        obtain ⟨hrlt, hrget⟩ := Hro
        -- in every branch the result is `some (h ++ [x], h.length)` with
        -- `x.children = n.children`
        have tail : ∀ x : Node, x.children = n.children → h1 = h ++ [x] →
            a = h.length →
            (∃ t, h1 = h ++ t) ∧ a < h1.length ∧ heapClosedP h1 ∧
              (∀ q, onPath q ([] : List Char) = false →
                walkAddr h1 (some a) q = walkAddr h (some r) q) := by
          intro x hxch hh1 ha
          subst hh1
          subst ha
          have hxb : nodeBound (h.length + 1) x := by
            rw [nodeBound, hxch]
            intro p hp
            exact lt_of_lt_of_le (closedP_get Hc hrget p hp) (by simp)
          refine ⟨⟨_, rfl⟩, by simp, closedP_snoc Hc hxb, ?_⟩
          intro q hq
          cases q with
          | nil => simp [onPath] at hq
          | cons c q2 =>
            rw [walkAddr, hget_append_len]
            dsimp only
            rw [hxch, walkAddr, hrget]
            dsimp only
            cases hfc : findChild n.children c with
            | none => rw [walk_none, walk_none]
            | some b =>
              have hb : b < h.length := closedP_get Hc hrget _ (findChild_mem hfc)
              exact walk_stable Hc (lowAgrees_of_ext h [x]) q2 (some b)
                fun r2 hr2 => by
                  injection hr2 with hr2
                  rw [← hr2]
                  exact hb
        rw [putAux] at hput
        by_cases hflag : (cloneNode n).flag
        · rw [if_pos hflag] at hput
          cases hval : (cloneNode n).val with
          | none =>
            rw [hval] at hput
            dsimp only at hput
            simp only [Option.some.injEq, Prod.mk.injEq] at hput
            exact tail (cloneNode n) rfl hput.1.symm hput.2.symm
          | some p =>
            obtain ⟨t0, x0⟩ := p
            rw [hval] at hput
            dsimp only at hput
            by_cases ht0 : t0 = tag
            · rw [if_pos ht0] at hput
              simp only [Option.some.injEq, Prod.mk.injEq] at hput
              exact tail ⟨(cloneNode n).children, true, some (tag, v)⟩ rfl
                hput.1.symm hput.2.symm
            · rw [if_neg ht0] at hput
              simp only [Option.some.injEq, Prod.mk.injEq] at hput
              exact tail (cloneNode n) rfl hput.1.symm hput.2.symm
        · rw [if_neg hflag] at hput
          simp only [Option.some.injEq, Prod.mk.injEq] at hput
          exact tail ⟨(cloneNode n).children, true, some (tag, v)⟩ rfl
            hput.1.symm hput.2.symm
  | cons ch rest ih =>
    intro h cur ro tag v h1 a Hc Hro hput
    cases cur with
    | none =>
      cases ro with
      | some r => exact Hro.elim
      | none =>
        rw [putAux] at hput
        cases hrec : putAux h none rest tag v with
        | none =>
          rw [hrec] at hput
          simp at hput
        | some pr =>
          obtain ⟨h2, ca⟩ := pr
          rw [hrec] at hput
          dsimp only at hput
          simp only [Option.some.injEq, Prod.mk.injEq] at hput
          obtain ⟨hh1, ha⟩ := hput
          obtain ⟨⟨t, hht⟩, hca, Hc2, hshare⟩ :=
            ih h none none tag v h2 ca Hc trivial hrec
          subst hht
          rw [← hh1, ← ha]
          constructor
          · exact ⟨t ++ [⟨[(ch, ca)], false, none⟩], by simp⟩
          constructor
          · simp
          constructor
          · refine closedP_snoc Hc2 ?_
            intro p hp
            simp only [List.mem_singleton] at hp
            subst hp
            exact Nat.lt_succ_of_lt hca
          · intro q hq
            cases q with
            | nil => simp [onPath] at hq
            | cons c q2 =>
              rw [walk_none, walkAddr, hget_append_len]
              dsimp only
              by_cases hc : ch = c
              · subst hc
                rw [show findChild [(ch, ca)] ch = some ca from by
                  rw [findChild, if_pos rfl]]
                have hq2 : onPath q2 rest = false := onPath_cons_of hq
                have hstab : walkAddr ((h ++ t) ++ [⟨[(ch, ca)], false, none⟩])
                    (some ca) q2 = walkAddr (h ++ t) (some ca) q2 :=
                  walk_stable Hc2 (lowAgrees_of_ext (h ++ t) _) q2 (some ca)
                    fun r2 hr2 => by
                      injection hr2 with hr2
                      rw [← hr2]
                      exact hca
                rw [hstab, hshare q2 hq2, walk_none]
              · rw [show findChild [(ch, ca)] c = none from by
                  rw [findChild, if_neg hc, findChild], walk_none]
    | some n =>
      cases ro with
      | none => exact Hro.elim
      | some r =>
        obtain ⟨hrlt, hrget⟩ := Hro
        rw [putAux] at hput
        cases hfc : findChild n.children ch with
        | some b =>
          rw [show findChild (cloneNode n).children ch = some b from hfc] at hput
          dsimp only at hput
          cases hgb : hget h b with
          | none =>
            rw [hgb] at hput
            simp at hput
          | some oldc =>
            rw [hgb] at hput
            dsimp only at hput
            cases hrec : putAux h (some oldc) rest tag v with
            | none =>
              rw [hrec] at hput
              simp at hput
            | some pr =>
              obtain ⟨h2, ca⟩ := pr
              rw [hrec] at hput
              dsimp only at hput
              simp only [Option.some.injEq, Prod.mk.injEq] at hput
              obtain ⟨hh1, ha⟩ := hput
              have hb : b < h.length := closedP_get Hc hrget _ (findChild_mem hfc)
              obtain ⟨⟨t, hht⟩, hca, Hc2, hshare⟩ :=
                ih h (some oldc) (some b) tag v h2 ca Hc ⟨hb, hgb⟩ hrec
              subst hht
              rw [← hh1, ← ha]
              have hXb : nodeBound ((h ++ t).length + 1)
                  (⟨setChild (cloneNode n).children ch ca, (cloneNode n).flag,
                    (cloneNode n).val⟩ : Node) := by
                intro p hp
                rcases mem_setChild hp with h2 | h2
                · subst h2
                  exact lt_of_lt_of_le hca (by simp)
                · have : p.2 < h.length := closedP_get Hc hrget p h2
                  simp only [List.length_append]
                  omega
              constructor
              · exact ⟨t ++ [⟨setChild (cloneNode n).children ch ca, (cloneNode n).flag,
                  (cloneNode n).val⟩], by simp⟩
              constructor
              · simp
              constructor
              · exact closedP_snoc Hc2 hXb
              · intro q hq
                cases q with
                | nil => simp [onPath] at hq
                | cons c q2 =>
                  rw [walkAddr, hget_append_len]
                  dsimp only
                  rw [walkAddr, hrget]
                  dsimp only
                  by_cases hc : c = ch
                  · subst hc
                    rw [findChild_setChild_self, hfc]
                    have hq2 : onPath q2 rest = false := onPath_cons_of hq
                    have hstab : walkAddr ((h ++ t) ++
                        [(⟨setChild (cloneNode n).children c ca, (cloneNode n).flag,
                          (cloneNode n).val⟩ : Node)]) (some ca) q2 =
                        walkAddr (h ++ t) (some ca) q2 :=
                      walk_stable Hc2 (lowAgrees_of_ext (h ++ t) _) q2 (some ca)
                        fun r2 hr2 => by
                          injection hr2 with hr2
                          rw [← hr2]
                          exact hca
                    rw [hstab, hshare q2 hq2]
                  · rw [findChild_setChild_ne hc]
                    cases hfc2 : findChild (cloneNode n).children c with
                    | none =>
                      rw [show findChild n.children c = none from hfc2, walk_none,
                        walk_none]
                    | some b2 =>
                      rw [show findChild n.children c = some b2 from hfc2]
                      have hb2 : b2 < h.length :=
                        closedP_get Hc hrget _ (findChild_mem hfc2)
                      rw [List.append_assoc]
                      exact walk_stable Hc
                        (lowAgrees_of_ext h (t ++ [⟨setChild (cloneNode n).children ch ca,
                          (cloneNode n).flag, (cloneNode n).val⟩])) q2 (some b2)
                        fun r2 hr2 => by
                          injection hr2 with hr2
                          rw [← hr2]
                          exact hb2
        | none =>
          rw [show findChild (cloneNode n).children ch = none from hfc] at hput
          dsimp only at hput
          cases hrec : putAux h none rest tag v with
          | none =>
            rw [hrec] at hput
            simp at hput
          | some pr =>
            obtain ⟨h2, ca⟩ := pr
            rw [hrec] at hput
            dsimp only at hput
            simp only [Option.some.injEq, Prod.mk.injEq] at hput
            obtain ⟨hh1, ha⟩ := hput
            obtain ⟨⟨t, hht⟩, hca, Hc2, hshare⟩ :=
              ih h none none tag v h2 ca Hc trivial hrec
            subst hht
            rw [← hh1, ← ha]
            have hXb : nodeBound ((h ++ t).length + 1)
                (⟨setChild (cloneNode n).children ch ca, (cloneNode n).flag,
                  (cloneNode n).val⟩ : Node) := by
              intro p hp
              rcases mem_setChild hp with h2 | h2
              · subst h2
                exact lt_of_lt_of_le hca (by simp)
              · have : p.2 < h.length := closedP_get Hc hrget p h2
                simp only [List.length_append]
                omega
            constructor
            · exact ⟨t ++ [⟨setChild (cloneNode n).children ch ca, (cloneNode n).flag,
                (cloneNode n).val⟩], by simp⟩
            constructor
            · simp
            constructor
            · exact closedP_snoc Hc2 hXb
            · intro q hq
              cases q with
              | nil => simp [onPath] at hq
              | cons c q2 =>
                rw [walkAddr, hget_append_len]
                dsimp only
                rw [walkAddr, hrget]
                dsimp only
                by_cases hc : c = ch
                · subst hc
                  rw [findChild_setChild_self, hfc, walk_none]
                  have hq2 : onPath q2 rest = false := onPath_cons_of hq
                  have hstab : walkAddr ((h ++ t) ++
                      [(⟨setChild (cloneNode n).children c ca, (cloneNode n).flag,
                        (cloneNode n).val⟩ : Node)]) (some ca) q2 =
                      walkAddr (h ++ t) (some ca) q2 :=
                    walk_stable Hc2 (lowAgrees_of_ext (h ++ t) _) q2 (some ca)
                      fun r2 hr2 => by
                        injection hr2 with hr2
                        rw [← hr2]
                        exact hca
                  rw [hstab, hshare q2 hq2, walk_none]
                · rw [findChild_setChild_ne hc]
                  cases hfc2 : findChild (cloneNode n).children c with
                  | none =>
                    rw [show findChild n.children c = none from hfc2, walk_none,
                      walk_none]
                  | some b2 =>
                    rw [show findChild n.children c = some b2 from hfc2]
                    have hb2 : b2 < h.length :=
                      closedP_get Hc hrget _ (findChild_mem hfc2)
                    rw [List.append_assoc]
                    exact walk_stable Hc
                      (lowAgrees_of_ext h (t ++ [⟨setChild (cloneNode n).children ch ca,
                        (cloneNode n).flag, (cloneNode n).val⟩])) q2 (some b2)
                      fun r2 hr2 => by
                        injection hr2 with hr2
                        rw [← hr2]
                        exact hb2

theorem putT_frame {h : Heap} {root : Option Nat} {key : List Char} {tag v : Nat}
    {h2 : Heap} {a : Nat}
    (Hc : heapClosedP h) (Hr : ∀ r, root = some r → r < h.length)
    (hput : putT h root key tag v = some (h2, a)) :
    (∃ t, h2 = h ++ t) ∧ a < h2.length ∧ heapClosedP h2 ∧
      (∀ q, onPath q key = false → walkAddr h2 (some a) q = walkAddr h root q) := by
  cases key with
  | nil =>
    rw [putT.eq_def] at hput
    dsimp only at hput
    cases root with
    | none => simp at hput
    | some r =>
      dsimp only at hput
      cases hg : hget h r with
      | none =>
        rw [hg] at hput
        simp at hput
      | some n =>
        rw [hg] at hput
        dsimp only at hput
        by_cases hflag : (cloneNode n).flag
        · have haux : putAux h (some n) [] tag v = some (h2, a) := by
            rw [putAux, if_pos hflag]
            rw [if_pos hflag] at hput
            exact hput
          exact putAux_spec [] h (some n) (some r) tag v h2 a Hc ⟨Hr r rfl, hg⟩ haux
        · rw [if_neg hflag] at hput
          simp at hput
  | cons c rest =>
    rw [putT.eq_def] at hput
    dsimp only at hput
    cases root with
    | none => exact putAux_spec (c :: rest) h none none tag v h2 a Hc trivial hput
    | some r =>
      dsimp only at hput
      cases hg : hget h r with
      | none =>
        rw [hg] at hput
        simp at hput
      | some n =>
        rw [hg] at hput
        dsimp only at hput
        exact putAux_spec (c :: rest) h (some n) (some r) tag v h2 a Hc
          ⟨Hr r rfl, hg⟩ hput

/-- Specification of the path-cloning loop of `Trie::Remove`: under a closed
old heap it never faults; when it completes, it has written only at fresh
addresses (at or above the entry parent), and the new heap contains a `spine`
of fresh clones ending in a clone of the old terminal node. -/
theorem removeWalk_spec (h0 : Heap) (H0 : heapClosedP h0) :
    ∀ (key : List Char) (h : Heap) (parent : Nat) (path : List (Nat × Char))
      (r : Nat) (nd : Node),
      lowAgrees h0.length h0 h →
      h0.length ≤ parent → parent < h.length →
      r < h0.length → hget h0 r = some nd → hget h parent = some (cloneNode nd) →
      (match removeWalk h parent path key with
       | .fault => False
       | .unchanged => True
       | .ok h2 path2 pfin =>
          (∀ b, b < parent → hget h2 b = hget h b) ∧
          h.length ≤ h2.length ∧ parent ≤ pfin ∧ pfin < h2.length ∧
          ∃ rt otn tl,
            rt < h0.length ∧ hget h0 rt = some otn ∧
            hget h2 pfin = some (cloneNode otn) ∧
            path2 = path ++ tl ∧
            spine h0 h2 key tl parent r pfin rt) := by
  intro key
  induction key with
  | nil =>
    intro h parent path r nd Ag hpge hplt hrlt hrget hpget
    refine ⟨fun b hb => rfl, le_refl _, le_refl _, hplt,
      r, nd, [], hrlt, hrget, hpget, by simp, rfl, rfl, rfl⟩
  | cons c rest ih =>
    intro h parent path r nd Ag hpge hplt hrlt hrget hpget
    rw [removeWalk, hpget]
    dsimp only
    cases hfc : findChild (cloneNode nd).children c with
    | none => trivial
    | some childAddr =>
      dsimp only
      have hchlt : childAddr < h0.length :=
        closedP_get H0 hrget _ (findChild_mem hfc)
      obtain ⟨ocn, hocn⟩ := lt_hget hchlt
      rw [Ag childAddr hchlt, hocn]
      dsimp only
      have hAg2 : lowAgrees h0.length h0
          (setNode (h ++ [cloneNode ocn]) parent
            { cloneNode nd with children := setChild (cloneNode nd).children c h.length }) := by
        intro b hb
        rw [hget_setNode_ne _ (by omega), hget_append_left _ (by omega)]
        exact Ag b hb
      have hlen2 : (setNode (h ++ [cloneNode ocn]) parent
          { cloneNode nd with children := setChild (cloneNode nd).children c h.length }).length
          = h.length + 1 := by
        rw [length_setNode]
        simp
      have hget2 : hget (setNode (h ++ [cloneNode ocn]) parent
          { cloneNode nd with children := setChild (cloneNode nd).children c h.length })
          h.length = some (cloneNode ocn) := by
        rw [hget_setNode_ne _ (by omega)]
        exact hget_append_len h (cloneNode ocn) []
      have IH := ih (setNode (h ++ [cloneNode ocn]) parent
          { cloneNode nd with children := setChild (cloneNode nd).children c h.length })
        h.length (path ++ [(parent, c)]) childAddr ocn hAg2 (by omega)
        (by rw [hlen2]; omega) hchlt hocn hget2
      cases hw : removeWalk (setNode (h ++ [cloneNode ocn]) parent
          { cloneNode nd with children := setChild (cloneNode nd).children c h.length })
          h.length (path ++ [(parent, c)]) rest with
      | fault =>
        rw [hw] at IH
        exact IH
      | unchanged => trivial
      | ok h2 path2 pfin =>
        rw [hw] at IH
        obtain ⟨E2, L2, P2a, P2b, rt, otn, tl, hrt, hotn, hterm, hpath2, hsp⟩ := IH
        have hEparent : hget h2 parent = some
            { cloneNode nd with children := setChild (cloneNode nd).children c h.length } := by
          rw [E2 parent hplt]
          exact hget_setNode_self _ (by simp [hplt]; omega)
        refine ⟨?_, ?_, ?_, P2b, rt, otn, (parent, c) :: tl, hrt, hotn, hterm, ?_, ?_⟩
        · intro b hb
          rw [E2 b (by omega), hget_setNode_ne _ (by omega),
            hget_append_left _ (by omega)]
        · omega
        · omega
        · rw [hpath2]
          simp
        · exact ⟨nd, _, h.length, childAddr, tl, rfl, hrget, hEparent, rfl, hfc,
            hplt, hsp⟩

theorem list_two_split {α : Type _} : ∀ (l : List α), 2 ≤ l.length →
    ∃ xs a b, l = xs ++ [a, b] := by
  intro l
  induction l with
  | nil => simp
  | cons x t ih =>
    intro hl
    cases t with
    | nil => simp at hl
    | cons y u =>
      cases u with
      | nil => exact ⟨[], x, y, rfl⟩
      | cons z w =>
        obtain ⟨xs, a, b, h⟩ := ih (by simp)
        refine ⟨x :: xs, a, b, ?_⟩
        rw [show (x :: xs) ++ [a, b] = x :: (xs ++ [a, b]) from rfl, ← h]

theorem getLast?_append_single {α : Type _} (l : List α) (a : α) :
    (l ++ [a]).getLast? = some a := by
  simp

/-- The pruning loop of `Trie::Remove` stops at its first iteration whenever
the examined child still has children: it returns the heap unchanged. -/
theorem prune_break {hf : Heap} {p : Nat} {c : Char} {rest : List (Nat × Char)}
    {np cn : Node} {ca : Nat}
    (hp : hget hf p = some np) (hfc : findChild np.children c = some ca)
    (hcn : hget hf ca = some cn) (hne : cn.children ≠ []) :
    pruneLoop hf ((p, c) :: rest) = some hf := by
  rw [pruneLoop, hp]
  dsimp only
  rw [hfc]
  dsimp only
  rw [hcn]
  dsimp only
  have hcond : (!cn.flag && cn.children.isEmpty) = false := by
    cases hcase : cn.children with
    | nil => exact absurd hcase hne
    | cons x t => simp [hcase]
  rw [hcond]
  simp

/-- After the paths built by `Remove`, the pruning loop never erases anything:
with the parent entry popped, the first child it examines is the next spine
node, which still holds the (dead) terminal in its children map. -/
theorem prune_id {h0 hf hf2 : Heap} {ks : List Char} {tl : List (Nat × Char)}
    {A r At rt : Nat} (hsp : spine h0 hf ks tl A r At rt)
    (Hag : ∀ b, b < At → hget hf2 b = hget hf b) :
    pruneLoop hf2 tl.dropLast.reverse = some hf2 := by
  rcases Nat.lt_or_ge tl.length 2 with hlen | hlen
  · cases tl with
    | nil => rfl
    | cons e t =>
      cases t with
      | nil => rfl
      | cons f u =>
        simp only [List.length_cons] at hlen
        omega
  · obtain ⟨xs, a, b, htl⟩ := list_two_split tl hlen
    obtain ⟨p, c⟩ := a
    obtain ⟨q, d⟩ := b
    subst htl
    obtain ⟨np, nq, hp, hfc, hq, hqne⟩ := spine_adjacent hsp xs p c q d [] rfl
    have hpmem : ((p, c) : Nat × Char) ∈ xs ++ [(p, c), (q, d)] := by simp
    have hqmem : ((q, d) : Nat × Char) ∈ xs ++ [(p, c), (q, d)] := by simp
    have hplt : p < At := (spine_entries hsp _ hpmem).2
    have hqlt : q < At := (spine_entries hsp _ hqmem).2
    have hdl : (xs ++ [(p, c), (q, d)]).dropLast = xs ++ [(p, c)] := by
      rw [show xs ++ [(p, c), (q, d)] = (xs ++ [(p, c)]) ++ [(q, d)] by simp]
      simp
    rw [hdl, show (xs ++ [(p, c)]).reverse = (p, c) :: xs.reverse by simp]
    exact prune_break ((Hag p hplt).trans hp) hfc ((Hag q hqlt).trans hq) hqne

/-- Frame and structural-sharing property of `Trie::Remove`: a completed
removal never writes at live old addresses, and every walk along a key that
is not a prefix of the removed key reaches the same (shared) nodes in the
result as in the original trie. -/
theorem removeT_frame {h : Heap} {root : Option Nat} {key : List Char}
    {h2 : Heap} {r2 : Option Nat}
    (Hc : heapClosedP h) (Hr : ∀ r, root = some r → r < h.length)
    (hrem : removeT h root key = some (h2, r2)) :
    (∀ b, b < h.length → hget h2 b = hget h b) ∧ h.length ≤ h2.length ∧
      (∀ q, onPath q key = false → walkAddr h2 r2 q = walkAddr h root q) := by
  rw [removeT.eq_def] at hrem
  cases root with
  | none =>
    dsimp only at hrem
    simp only [Option.some.injEq, Prod.mk.injEq] at hrem
    obtain ⟨hh2, hr2⟩ := hrem
    subst hh2
    subst hr2
    exact ⟨fun b hb => rfl, le_refl _, fun q hq => rfl⟩
  | some r0 =>
    dsimp only at hrem
    have hr0 : r0 < h.length := Hr r0 rfl
    obtain ⟨rn, hrn⟩ := lt_hget hr0
    rw [hrn] at hrem
    dsimp only at hrem
    have SPEC := removeWalk_spec h Hc key (h ++ [cloneNode rn]) h.length [] r0 rn
      (lowAgrees_of_ext h _) (le_refl _) (by simp) hr0 hrn
      (hget_append_len h _ [])
    cases hw : removeWalk (h ++ [cloneNode rn]) h.length [] key with
    | fault =>
      rw [hw] at SPEC
      exact SPEC.elim
    | unchanged =>
      rw [hw] at hrem
      dsimp only at hrem
      simp only [Option.some.injEq, Prod.mk.injEq] at hrem
      obtain ⟨hh2, hr2⟩ := hrem
      subst hh2
      subst hr2
      exact ⟨fun b hb => rfl, le_refl _, fun q hq => rfl⟩
    | ok hW pathW pfin =>
      rw [hw] at SPEC hrem
      dsimp only at hrem
      obtain ⟨E2, L2, Pa, Pb, rt, otn, tl, hrt, hotn, hterm, hpath, hsp⟩ := SPEC
      rw [List.nil_append] at hpath
      subst hpath
      rw [hterm] at hrem
      dsimp only at hrem
      have hlenW : h.length + 1 ≤ hW.length := by
        have := L2
        simp only [List.length_append, List.length_cons, List.length_nil] at this
        omega
      have hpfin_ge : h.length ≤ pfin := Pa
      -- common fact: entries of the old heap are untouched in hW
      have EW : ∀ b, b < h.length → hget hW b = hget h b := by
        intro b hb
        rw [E2 b (by omega), hget_append_left _ hb]
      by_cases hflag : (cloneNode otn).flag = true
      · rw [if_pos hflag] at hrem
        by_cases hemp : (cloneNode otn).children.isEmpty = true
        · -- leaf case: clear the flag, pop the parent entry, prune (a no-op)
          rw [if_pos hemp] at hrem
          cases pathW with
          | nil => simp at hrem
          | cons e tlrest =>
            dsimp only at hrem
            have hAg3 : ∀ b, b < pfin →
                hget (setNode hW pfin
                  ⟨(cloneNode otn).children, false, (cloneNode otn).val⟩) b =
                hget hW b := by
              intro b hb
              exact hget_setNode_ne _ (by omega)
            rw [prune_id hsp hAg3] at hrem
            dsimp only at hrem
            simp only [Option.some.injEq, Prod.mk.injEq] at hrem
            obtain ⟨hh2, hr2⟩ := hrem
            subst hh2
            subst hr2
            have E : ∀ b, b < h.length → hget (setNode hW pfin
                ⟨(cloneNode otn).children, false, (cloneNode otn).val⟩) b =
                hget h b := by
              intro b hb
              rw [hAg3 b (by omega)]
              exact EW b hb
            refine ⟨E, by rw [length_setNode]; omega, ?_⟩
            intro q hq
            exact spine_walk Hc E key
              (spine_mono hsp hAg3)
              hr0
              ⟨otn, ⟨(cloneNode otn).children, false, (cloneNode otn).val⟩,
                hotn, hget_setNode_self _ (by omega), rfl⟩
              q hq
        · -- non-leaf case: replace the terminal by a plain node and relink
          rw [if_neg hemp] at hrem
          cases pathW with
          | nil =>
            -- the spine is empty, so the key is empty and the terminal is the root
            cases key with
            | cons c rest =>
              obtain ⟨n, a, A2, r2x, tl2, htl2, -⟩ := hsp
              simp at htl2
            | nil =>
              obtain ⟨-, hfin, hrt0⟩ := hsp
              rw [show (([] : List (Nat × Char)).getLast?) = none from rfl] at hrem
              dsimp only at hrem
              rw [show (([] : List (Nat × Char)).reverse) = [] from rfl,
                pruneLoop] at hrem
              dsimp only at hrem
              simp only [Option.some.injEq, Prod.mk.injEq] at hrem
              obtain ⟨hh2, hr2⟩ := hrem
              subst hh2
              subst hr2
              have E : ∀ b, b < h.length →
                  hget (setNode hW pfin
                      ⟨(cloneNode otn).children, false, (cloneNode otn).val⟩ ++
                    [plainNode (cloneNode otn).children]) b = hget h b := by
                intro b hb
                rw [hget_append_left _ (by rw [length_setNode]; omega),
                  hget_setNode_ne _ (by omega)]
                exact EW b hb
              refine ⟨E, ?_, ?_⟩
              · simp only [List.length_append, length_setNode, List.length_cons,
                  List.length_nil]
                omega
              · intro q hq
                refine spine_walk Hc E [] ⟨rfl, rfl, rfl⟩ hr0 ?_ q hq
                refine ⟨otn, plainNode (cloneNode otn).children, ?_, ?_, rfl⟩
                · rw [hrt0]
                  exact hotn
                · exact hget_append_len _ _ []
          | cons e tlrest =>
            -- the key and the path are nonempty: relink under the last entry
            rcases List.eq_nil_or_concat key with hkey | ⟨ks2, klast, hkey⟩
            · subst hkey
              obtain ⟨htlnil, -⟩ := hsp
              simp at htlnil
            · rw [List.concat_eq_append] at hkey
              subst hkey
              obtain ⟨tl2, Am, rm, om, am, htl2, hsp2, hrm, hAm, hchm, hfcm, hltm⟩ :=
                spine_snoc_elim hsp
              rw [htl2] at hrem
              rw [getLast?_append_single] at hrem
              dsimp only at hrem
              have hAmlt : Am < hW.length := hget_lt hAm
              have hAmge : h.length ≤ Am := by
                have := spine_entries hsp (Am, klast) (by rw [htl2]; simp)
                exact this.1
              have hget4Am : hget (setNode hW pfin
                    ⟨(cloneNode otn).children, false, (cloneNode otn).val⟩ ++
                  [plainNode (cloneNode otn).children]) Am = some am := by
                rw [hget_append_left _ (by rw [length_setNode]; omega),
                  hget_setNode_ne _ (by omega)]
                exact hAm
              rw [hget4Am] at hrem
              dsimp only at hrem
              rw [show (tl2 ++ [(Am, klast)]).reverse = (Am, klast) :: tl2.reverse
                by simp] at hrem
              have hchildne : (plainNode (cloneNode otn).children).children ≠ [] := by
                intro hnil
                exact hemp (by rw [plainNode] at hnil; rw [hnil]; rfl)
              have hAmH4 : Am < (setNode hW pfin
                  ⟨(cloneNode otn).children, false, (cloneNode otn).val⟩ ++
                  [plainNode (cloneNode otn).children]).length := by
                simp only [List.length_append, length_setNode, List.length_cons,
                  List.length_nil]
                omega
              have hAmne : Am ≠ (setNode hW pfin
                  ⟨(cloneNode otn).children, false, (cloneNode otn).val⟩).length := by
                rw [length_setNode]
                omega
              have hgetAmNew : hget (setNode (setNode hW pfin
                    ⟨(cloneNode otn).children, false, (cloneNode otn).val⟩ ++
                    [plainNode (cloneNode otn).children]) Am
                    ⟨setChild am.children klast (setNode hW pfin
                      ⟨(cloneNode otn).children, false, (cloneNode otn).val⟩).length,
                      am.flag, am.val⟩) Am = some
                    ⟨setChild am.children klast (setNode hW pfin
                      ⟨(cloneNode otn).children, false, (cloneNode otn).val⟩).length,
                      am.flag, am.val⟩ :=
                hget_setNode_self _ hAmH4
              have hgetPA : hget (setNode (setNode hW pfin
                    ⟨(cloneNode otn).children, false, (cloneNode otn).val⟩ ++
                    [plainNode (cloneNode otn).children]) Am
                    ⟨setChild am.children klast (setNode hW pfin
                      ⟨(cloneNode otn).children, false, (cloneNode otn).val⟩).length,
                      am.flag, am.val⟩)
                  (setNode hW pfin
                    ⟨(cloneNode otn).children, false, (cloneNode otn).val⟩).length =
                  some (plainNode (cloneNode otn).children) := by
                rw [hget_setNode_ne _ (fun he => hAmne he.symm)]
                exact hget_append_len _ _ []
              rw [prune_break hgetAmNew (findChild_setChild_self _ _ _) hgetPA
                hchildne] at hrem
              dsimp only at hrem
              simp only [Option.some.injEq, Prod.mk.injEq] at hrem
              obtain ⟨hh2, hr2⟩ := hrem
              subst hh2
              subst hr2
              -- untouched old region
              have E : ∀ b, b < h.length → hget (setNode (setNode hW pfin
                    ⟨(cloneNode otn).children, false, (cloneNode otn).val⟩ ++
                    [plainNode (cloneNode otn).children]) Am
                    ⟨setChild am.children klast (setNode hW pfin
                      ⟨(cloneNode otn).children, false, (cloneNode otn).val⟩).length,
                      am.flag, am.val⟩) b = hget h b := by
                intro b hb
                rw [hget_setNode_ne _ (by omega),
                  hget_append_left _ (by rw [length_setNode]; omega),
                  hget_setNode_ne _ (by omega)]
                exact EW b hb
              refine ⟨E, ?_, ?_⟩
              · rw [length_setNode]
                simp only [List.length_append, length_setNode, List.length_cons,
                  List.length_nil]
                omega
              · -- rebuild the spine with the plain replacement node as terminal
                have hspH5 : spine h (setNode (setNode hW pfin
                      ⟨(cloneNode otn).children, false, (cloneNode otn).val⟩ ++
                      [plainNode (cloneNode otn).children]) Am
                      ⟨setChild am.children klast (setNode hW pfin
                        ⟨(cloneNode otn).children, false, (cloneNode otn).val⟩).length,
                        am.flag, am.val⟩) ks2 tl2 h.length r0 Am rm := by
                  refine spine_mono hsp2 ?_
                  intro b hb
                  rw [hget_setNode_ne _ (by omega),
                    hget_append_left _ (by rw [length_setNode]; omega),
                    hget_setNode_ne _ (by omega)]
                have hspFull := spine_snoc_in klast hspH5 hrm hgetAmNew
                  (by dsimp only; rw [hchm, setChild_setChild]) hfcm
                  (by rw [length_setNode]; omega)
                intro q hq
                refine spine_walk Hc E (ks2 ++ [klast]) hspFull hr0
                  ⟨otn, plainNode (cloneNode otn).children, hotn, hgetPA, rfl⟩ q hq
      · rw [if_neg hflag] at hrem
        simp only [Option.some.injEq, Prod.mk.injEq] at hrem
        obtain ⟨hh2, hr2⟩ := hrem
        subst hh2
        subst hr2
        exact ⟨fun b hb => rfl, le_refl _, fun q hq => rfl⟩

/-- C5: persistence and structural sharing of `Put` and `Remove` on every
well-formed trie.  Computing `t.Put(k, v)` or `t.Remove(k)` leaves the
receiver unchanged: every lookup through the old root (any key, any type tag)
yields the same result in the new heap, because no live old node is ever
written; and every subtree of the result that is not on the path to `k`
(reached by a key that is not a prefix of `k`) is the very same node address
as in the receiver — shared, not copied. -/
theorem claim_c5 (h : Heap) (root : Option Nat) (k : List Char) (tag v : Nat)
    (hc : heapClosedB h = true) (hr : rootOkB h root = true) :
    (∀ h2 a, putT h root k tag v = some (h2, a) →
      (∀ q t2, getT h2 root q t2 = getT h root q t2) ∧
      (∀ q, onPath q k = false → walkAddr h2 (some a) q = walkAddr h root q)) ∧
    (∀ h2 r2, removeT h root k = some (h2, r2) →
      (∀ q t2, getT h2 root q t2 = getT h root q t2) ∧
      (∀ q, onPath q k = false → walkAddr h2 r2 q = walkAddr h root q)) := by
  have Hc : heapClosedP h := (heapClosedB_iff h).1 hc
  have Hr : ∀ r, root = some r → r < h.length := by
    intro r hr2
    subst hr2
    simpa [rootOkB] using hr
  constructor
  · intro h2 a hput
    obtain ⟨⟨t, hht⟩, ha, Hc2, hshare⟩ := putT_frame Hc Hr hput
    constructor
    · intro q t2
      subst hht
      exact getT_stable Hc (lowAgrees_of_ext h t) q root t2 Hr
    · exact hshare
  · intro h2 r2 hrem
    obtain ⟨E, hlen, hshare⟩ := removeT_frame Hc Hr hrem
    constructor
    · intro q t2
      exact getT_stable Hc E q root t2 Hr
    · exact hshare

/-- C5 witness: on the one-key trie `(heapA, root 1)`, putting `"a"` again and
removing `"a"` both leave the old root's view unchanged (the removed value is
still retrievable through the old root) and share the off-path walk `"b"`. -/
theorem claim_c5_witness :
    (getT (heapA ++ [⟨[], true, some (0, 7)⟩, ⟨[('a', 2)], false, none⟩])
        (some 1) ['a'] 0 = getT heapA (some 1) ['a'] 0) ∧
    (walkAddr (heapA ++ [⟨[], true, some (0, 7)⟩, ⟨[('a', 2)], false, none⟩])
        (some 3) ['b'] = walkAddr heapA (some 1) ['b']) ∧
    (getT heapAR (some 1) ['a'] 0 = getT heapA (some 1) ['a'] 0) ∧
    (walkAddr heapAR (some 2) ['b'] = walkAddr heapA (some 1) ['b']) := by
  have H := claim_c5 heapA (some 1) ['a'] 0 7 (by decide) (by decide)
  have hput := H.1 (heapA ++ [(⟨[], true, some (0, 7)⟩ : Node),
    (⟨[('a', 2)], false, none⟩ : Node)]) 3 (by rfl)
  have hrem := H.2 heapAR (some 2) rfl
  exact ⟨hput.1 ['a'] 0, hput.2 ['b'] (by decide),
    hrem.1 ['a'] 0, hrem.2 ['b'] (by decide)⟩

/-- C7 witness: one `Put` and one `Remove` from the fresh store, both
extending the sequence. -/
theorem claim_c7_witness :
    ((∃ t, (StoreState.mk heapA [none, some 1] 0).snapshots =
        initStore.snapshots ++ t) ∧
      (StoreState.mk heapA [none, some 1] 0).snapshots ≠ []) ∧
    ((∃ t, (StoreState.mk heapAR [none, some 1, some 2] 0).snapshots =
        (StoreState.mk heapA [none, some 1] 0).snapshots ++ t) ∧
      (StoreState.mk heapAR [none, some 1, some 2] 0).snapshots ≠ []) := by
  refine ⟨?_, ?_⟩
  · exact claim_c7.2.1 initStore ['a'] 0 5 ⟨heapA, [none, some 1], 0⟩ 0 (by rfl)
  · exact claim_c7.2.2 ⟨heapA, [none, some 1], 0⟩ ['a']
      ⟨heapAR, [none, some 1, some 2], 0⟩ 0 (by rfl)

end CowTrie
